import Mathlib

/-
  Verification of the A2D finite-element assembly core.

  The development shallowly embeds the degree-of-freedom view abstraction of
  include/multiphysics/feelementvector.h (ElementVector_Serial,
  ElementVector_Parallel, ElementMat_Serial) and the assembly engine of
  feelement.h (FiniteElement::add_residual, add_jacobian_vector_product,
  add_jacobian, TestPDEImplementation).  Scalars are modelled by the rationals;
  global numeric arrays are functions from natural-number indices to the
  scalars.  External collaborators (basis interpolation, quadrature, the
  weak-form contract, the matrix algebra on geometry Jacobians) are parameters
  of the embedded functions, mirroring the template parameters of the source.
-/

/-- Compile-time signature of a combined basis: the number of basis groups
(Basis::nbasis) and the number of local degrees of freedom of each group
(Basis::get_ndof). -/
structure BasisSig where
  nbasis : Nat
  ndofOf : Nat → Nat

/-- Basis::get_dof_offset for a basis group: the number of local degrees of
freedom of all preceding groups. -/
def BasisSig.dofOffset (B : BasisSig) (b : Nat) : Nat :=
  (Finset.range b).sum B.ndofOf

/-- Basis::ndof: total number of local degrees of freedom of an element. -/
def BasisSig.ndof (B : BasisSig) : Nat :=
  B.dofOffset B.nbasis

/-- Element mesh connectivity as consumed by the element-vector classes:
element count, element-to-global dof map and the per-dof orientation sign. -/
structure MeshSig where
  nelems : Nat
  gdof : Nat → Nat → Nat → Nat
  gsign : Nat → Nat → Nat → Int

/-- All-zero local dof buffer (the contents of a freshly constructed serial
FEDof, whose constructor fills the buffer with T(0.0)). -/
def zeroDof : Nat → ℚ := fun _ => 0

/-- The effect of std::fill(dof, dof + n, T(0.0)) on a buffer with arbitrary
prior contents d: the first n entries become zero. -/
def fillZero (n : Nat) (d : Nat → ℚ) : Nat → ℚ :=
  fun i => if i < n then 0 else d i

/-- A sequence of indexed writes executed in order (last write wins). -/
def writeList {α : Type} (l : List (Nat × α)) (d : Nat → α) : Nat → α :=
  l.foldl (fun f p => Function.update f p.1 p.2) d

/-- A sequence of indexed accumulations executed in order. -/
def addList (l : List (Nat × ℚ)) (v : Nat → ℚ) : Nat → ℚ :=
  l.foldl (fun f p => Function.update f p.1 (f p.1 + p.2)) v

/-- The (basis group, local index) pairs of the first n basis groups, in the
order the serial element-vector recursion visits them. -/
def groupPairs (B : BasisSig) : Nat → List (Nat × Nat)
  | 0 => []
  | b + 1 => groupPairs B b ++ (List.range (B.ndofOf b)).map (fun i => (b, i))

/-- Local dof position used by all element-vector implementations:
i + Basis::get_dof_offset of the group. -/
def localPos (B : BasisSig) (p : Nat × Nat) : Nat :=
  p.2 + B.dofOffset p.1

/-- ElementVector_Serial::get_element_values (operate_element_values_ with
op = GET over all basis groups): dof position i + offset receives
sign * vec[global dof index]. -/
def serialGet (B : BasisSig) (M : MeshSig) (elem : Nat) (vec : Nat → ℚ)
    (dof : Nat → ℚ) : Nat → ℚ :=
  writeList ((groupPairs B B.nbasis).map fun p =>
    (localPos B p, (M.gsign elem p.1 p.2 : ℚ) * vec (M.gdof elem p.1 p.2))) dof

/-- ElementVector_Serial::add_element_values (op = ADD):
vec[global dof index] += sign * dof[i + offset]. -/
def serialAdd (B : BasisSig) (M : MeshSig) (elem : Nat) (dof : Nat → ℚ)
    (vec : Nat → ℚ) : Nat → ℚ :=
  addList ((groupPairs B B.nbasis).map fun p =>
    (M.gdof elem p.1 p.2, (M.gsign elem p.1 p.2 : ℚ) * dof (localPos B p))) vec

/-- ElementVector_Serial::set_element_values (op = SET):
vec[global dof index] = sign * dof[i + offset]. -/
def serialSet (B : BasisSig) (M : MeshSig) (elem : Nat) (dof : Nat → ℚ)
    (vec : Nat → ℚ) : Nat → ℚ :=
  writeList ((groupPairs B B.nbasis).map fun p =>
    (M.gdof elem p.1 p.2, (M.gsign elem p.1 p.2 : ℚ) * dof (localPos B p))) vec

/-- Gathering an element's values through a freshly constructed serial FEDof:
the constructor zeroes the buffer, then get_element_values fills it. -/
def gatherDof (B : BasisSig) (M : MeshSig) (elem : Nat) (vec : Nat → ℚ) :
    Nat → ℚ :=
  serialGet B M elem vec zeroDof

theorem writeList_nil {α : Type} (d : Nat → α) : writeList ([] : List (Nat × α)) d = d := rfl

theorem writeList_cons {α : Type} (p : Nat × α) (l : List (Nat × α)) (d : Nat → α) :
    writeList (p :: l) d = writeList l (Function.update d p.1 p.2) := rfl

theorem writeList_append {α : Type} (l₁ l₂ : List (Nat × α)) (d : Nat → α) :
    writeList (l₁ ++ l₂) d = writeList l₂ (writeList l₁ d) := by
  simp [writeList, List.foldl_append]

/-- Writes at other keys leave an index untouched. -/
theorem writeList_eq_of_ne {α : Type} (l : List (Nat × α)) (d : Nat → α) (k : Nat)
    (h : ∀ p ∈ l, p.1 ≠ k) : writeList l d k = d k := by
  induction l generalizing d with
  | nil => rfl
  | cons p t ih =>
    rw [writeList_cons, ih _ (fun q hq => h q (List.mem_cons_of_mem _ hq))]
    exact Function.update_noteq (Ne.symm (h p (List.mem_cons_self _ _))) _ _

/-- If all writes in the list have pairwise distinct keys, the write at key
p₀.1 determines the final value there. -/
theorem writeList_eq_of_mem {α : Type} (l : List (Nat × α)) (d : Nat → α)
    (p₀ : Nat × α) (hp₀ : p₀ ∈ l)
    (hkeys : ∀ p ∈ l, ∀ q ∈ l, p.1 = q.1 → p = q) :
    writeList l d p₀.1 = p₀.2 := by
  induction l generalizing d with
  | nil => cases hp₀
  | cons p t ih =>
    rw [writeList_cons]
    by_cases hmem : p₀ ∈ t
    · exact ih _ hmem (fun a ha b hb => hkeys a (List.mem_cons_of_mem _ ha) b
        (List.mem_cons_of_mem _ hb))
    · have hph : p₀ = p := by
        rcases List.mem_cons.mp hp₀ with h | h
        · exact h
        · exact absurd h hmem
      subst hph
      have hne : ∀ q ∈ t, q.1 ≠ p₀.1 := by
        intro q hq hqe
        exact hmem (by
          have := hkeys q (List.mem_cons_of_mem _ hq) p₀ (List.mem_cons_self _ _) hqe
          rw [← this]; exact hq)
      rw [writeList_eq_of_ne _ _ _ hne, Function.update_same]

/-- Sum of the values written at a given key. -/
def keySum (l : List (Nat × ℚ)) (k : Nat) : ℚ :=
  (l.map fun p => if p.1 = k then p.2 else 0).sum

theorem keySum_nil (k : Nat) : keySum [] k = 0 := rfl

theorem keySum_cons (p : Nat × ℚ) (l : List (Nat × ℚ)) (k : Nat) :
    keySum (p :: l) k = (if p.1 = k then p.2 else 0) + keySum l k := by
  simp [keySum]

theorem keySum_append (l₁ l₂ : List (Nat × ℚ)) (k : Nat) :
    keySum (l₁ ++ l₂) k = keySum l₁ k + keySum l₂ k := by
  simp [keySum]

theorem keySum_eq_zero (l : List (Nat × ℚ)) (k : Nat)
    (h : ∀ p ∈ l, p.1 ≠ k) : keySum l k = 0 := by
  induction l with
  | nil => rfl
  | cons p t ih =>
    rw [keySum_cons, if_neg (h p (List.mem_cons_self _ _)),
      ih (fun q hq => h q (List.mem_cons_of_mem _ hq)), add_zero]

theorem addList_cons (p : Nat × ℚ) (l : List (Nat × ℚ)) (v : Nat → ℚ) :
    addList (p :: l) v = addList l (Function.update v p.1 (v p.1 + p.2)) := rfl

/-- An in-order accumulation adds, at each index, the sum of the values
targeted at that index. -/
theorem addList_eq (l : List (Nat × ℚ)) (v : Nat → ℚ) (k : Nat) :
    addList l v k = v k + keySum l k := by
  induction l generalizing v with
  | nil => simp [addList, keySum]
  | cons p t ih =>
    have hstep : addList (p :: t) v = addList t (Function.update v p.1 (v p.1 + p.2)) := rfl
    rw [hstep, ih, keySum_cons]
    by_cases hk : p.1 = k
    · subst hk; rw [Function.update_same, if_pos rfl]; ring
    · rw [Function.update_noteq (Ne.symm hk) _ _, if_neg hk]; ring

theorem mem_groupPairs (B : BasisSig) (n : Nat) (p : Nat × Nat) :
    p ∈ groupPairs B n ↔ p.1 < n ∧ p.2 < B.ndofOf p.1 := by
  induction n with
  | zero => simp [groupPairs]
  | succ m ih =>
    simp only [groupPairs, List.mem_append, ih, List.mem_map, List.mem_range]
    constructor
    · rintro (⟨h1, h2⟩ | ⟨i, hi, rfl⟩)
      · exact ⟨Nat.lt_succ_of_lt h1, h2⟩
      · exact ⟨Nat.lt_succ_self m, hi⟩
    · rintro ⟨h1, h2⟩
      rcases Nat.lt_succ_iff_lt_or_eq.mp h1 with h | h
      · exact Or.inl ⟨h, h2⟩
      · exact Or.inr ⟨p.2, by rw [← h]; exact ⟨h2, rfl⟩⟩

theorem dofOffset_succ (B : BasisSig) (b : Nat) :
    B.dofOffset (b + 1) = B.dofOffset b + B.ndofOf b :=
  Finset.sum_range_succ B.ndofOf b

theorem dofOffset_mono (B : BasisSig) {b b' : Nat} (h : b ≤ b') :
    B.dofOffset b ≤ B.dofOffset b' := by
  unfold BasisSig.dofOffset
  exact Finset.sum_le_sum_of_subset (Finset.range_subset.mpr h)

/-- Valid (group, local index) pairs map to distinct local dof positions. -/
theorem localPos_inj (B : BasisSig) {p q : Nat × Nat}
    (hp : p.2 < B.ndofOf p.1) (hq : q.2 < B.ndofOf q.1)
    (h : localPos B p = localPos B q) : p = q := by
  unfold localPos at h
  rcases Nat.lt_trichotomy p.1 q.1 with hlt | heq | hgt
  · exfalso
    have h1 : p.2 + B.dofOffset p.1 < B.dofOffset (p.1 + 1) := by
      rw [dofOffset_succ]; omega
    have h2 : B.dofOffset (p.1 + 1) ≤ B.dofOffset q.1 := dofOffset_mono B hlt
    omega
  · have : p.2 = q.2 := by rw [heq] at h; omega
    exact Prod.ext heq this
  · exfalso
    have h1 : q.2 + B.dofOffset q.1 < B.dofOffset (q.1 + 1) := by
      rw [dofOffset_succ]; omega
    have h2 : B.dofOffset (q.1 + 1) ≤ B.dofOffset p.1 := dofOffset_mono B hgt
    omega

/-- Writes addressed through localPos over all basis groups hit distinct
positions, so each valid slot ends with its own written value. -/
theorem writeList_localPos_eval {α : Type} (B : BasisSig) (val : Nat × Nat → α)
    (d : Nat → α) {b i : Nat} (hb : b < B.nbasis) (hi : i < B.ndofOf b) :
    writeList ((groupPairs B B.nbasis).map fun p => (localPos B p, val p)) d
      (i + B.dofOffset b) = val (b, i) := by
  have hmem : ((i + B.dofOffset b, val (b, i)) : Nat × α) ∈
      (groupPairs B B.nbasis).map fun p => (localPos B p, val p) := by
    refine List.mem_map.mpr ⟨(b, i), ?_, rfl⟩
    exact (mem_groupPairs B B.nbasis (b, i)).mpr ⟨hb, hi⟩
  have := writeList_eq_of_mem _ d _ hmem ?_
  · exact this
  · intro p hp q hq hpq
    rcases List.mem_map.mp hp with ⟨u, hu, rfl⟩
    rcases List.mem_map.mp hq with ⟨w, hw, rfl⟩
    have hu' := (mem_groupPairs B B.nbasis u).mp hu
    have hw' := (mem_groupPairs B B.nbasis w).mp hw
    have : u = w := localPos_inj B hu'.2 hw'.2 hpq
    rw [this]

/-- Evaluation of the serial gather: every local dof slot of every basis group
receives the orientation sign times the referenced global entry. -/
theorem serialGet_eval (B : BasisSig) (M : MeshSig) (elem : Nat) (vec : Nat → ℚ)
    (dof : Nat → ℚ) {b i : Nat} (hb : b < B.nbasis) (hi : i < B.ndofOf b) :
    serialGet B M elem vec dof (i + B.dofOffset b) =
      (M.gsign elem b i : ℚ) * vec (M.gdof elem b i) :=
  writeList_localPos_eval B
    (fun p => (M.gsign elem p.1 p.2 : ℚ) * vec (M.gdof elem p.1 p.2)) dof hb hi

/-- Positions not belonging to any basis group are untouched by the gather. -/
theorem serialGet_eval_untouched (B : BasisSig) (M : MeshSig) (elem : Nat)
    (vec : Nat → ℚ) (dof : Nat → ℚ) {k : Nat}
    (hk : ∀ b i, b < B.nbasis → i < B.ndofOf b → i + B.dofOffset b ≠ k) :
    serialGet B M elem vec dof k = dof k := by
  unfold serialGet
  refine writeList_eq_of_ne _ _ _ ?_
  intro p hp
  rcases List.mem_map.mp hp with ⟨u, hu, rfl⟩
  have hu' := (mem_groupPairs B B.nbasis u).mp hu
  exact hk u.1 u.2 hu'.1 hu'.2

/-- Basis groups visited by the recursion of
ElementVector_Parallel::_get_element_values and _add_element_values when
instantiated at a given template argument: the code processes group
nbasis - 1 and recurses, when nbasis exceeds one, at nbasis - 2.  At the
template argument zero the group index nbasis - 1 underflows in the unsigned
index type. -/
def parVisited : Nat → List Nat
  | 0 => [2 ^ 32 - 1]
  | 1 => [0]
  | n + 2 => (n + 1) :: parVisited n

/-- The (basis group, local index) pairs traversed by the parallel
implementation for one element, in visit order. -/
def parPairsAux (B : BasisSig) : List Nat → List (Nat × Nat)
  | [] => []
  | b :: t => ((List.range (B.ndofOf b)).map fun i => (b, i)) ++ parPairsAux B t

def parPairs (B : BasisSig) : List (Nat × Nat) :=
  parPairsAux B (parVisited B.nbasis)

/-- ElementVector_Parallel::_get_element_values for one element, as invoked by
init_values: the per-element slab row receives sign * vec[global dof] at
position i + offset, for the visited groups only. -/
def parInitElem (B : BasisSig) (M : MeshSig) (elem : Nat) (vec : Nat → ℚ)
    (slab : Nat → Nat → ℚ) : Nat → Nat → ℚ :=
  Function.update slab elem
    (writeList ((parPairs B).map fun p =>
      (localPos B p, (M.gsign elem p.1 p.2 : ℚ) * vec (M.gdof elem p.1 p.2)))
      (slab elem))

/-- ElementVector_Parallel::init_values: populate the slab for every element. -/
def parInitValues (B : BasisSig) (M : MeshSig) (vec : Nat → ℚ)
    (slab : Nat → Nat → ℚ) : Nat → Nat → ℚ :=
  (List.range M.nelems).foldl (fun s e => parInitElem B M e vec s) slab

/-- ElementVector_Parallel::init_zero_values: zero the whole slab. -/
def parInitZeroValues (_slab : Nat → Nat → ℚ) : Nat → Nat → ℚ :=
  fun _ _ => 0

/-- ElementVector_Parallel::_add_element_values for one element, as invoked by
add_values: vec[global dof] += sign * slab[elem][i + offset] for the visited
groups only (the atomic addition of the source, sequentialized). -/
def parAddElem (B : BasisSig) (M : MeshSig) (elem : Nat)
    (slab : Nat → Nat → ℚ) (vec : Nat → ℚ) : Nat → ℚ :=
  addList ((parPairs B).map fun p =>
    (M.gdof elem p.1 p.2, (M.gsign elem p.1 p.2 : ℚ) * slab elem (localPos B p))) vec

/-- ElementVector_Parallel::add_values: merge every element's slab row into the
global vector. -/
def parAddValues (B : BasisSig) (M : MeshSig) (slab : Nat → Nat → ℚ)
    (vec : Nat → ℚ) : Nat → ℚ :=
  (List.range M.nelems).foldl (fun v e => parAddElem B M e slab v) vec

/-- The mutable state seen by the parallel element vector: the global dof array
and the per-element duplicated slab. -/
structure ParState where
  vec : Nat → ℚ
  slab : Nat → Nat → ℚ

/-- ElementVector_Parallel::get_element_values has an empty body. -/
def parGetElementValues (_elem : Nat) (st : ParState) : ParState := st

/-- ElementVector_Parallel::add_element_values has an empty body. -/
def parAddElementValues (_elem : Nat) (st : ParState) : ParState := st

/-- ElementVector_Parallel::set_element_values has an empty body. -/
def parSetElementValues (_elem : Nat) (st : ParState) : ParState := st

/-- ElementMat_Serial::get_dof: the flat array of global dof indices of an
element, indexed by local position, built over uninitialized stack storage d0. -/
def matDofArr (B : BasisSig) (M : MeshSig) (elem : Nat) (d0 : Nat → Nat) :
    Nat → Nat :=
  writeList ((groupPairs B B.nbasis).map fun p =>
    (localPos B p, M.gdof elem p.1 p.2)) d0

/-- ElementMat_Serial::get_dof: the flat array of orientation signs of an
element, indexed by local position, built over uninitialized stack storage s0. -/
def matSignArr (B : BasisSig) (M : MeshSig) (elem : Nat) (s0 : Nat → Int) :
    Nat → Int :=
  writeList ((groupPairs B B.nbasis).map fun p =>
    (localPos B p, M.gsign elem p.1 p.2)) s0

/-- The arguments handed to the sparse matrix sink by
MatType::add_values(ndof, dof, ndof, dof, elem_mat). -/
structure MatSinkCall where
  nrows : Nat
  rows : Nat → Nat
  ncols : Nat
  cols : Nat → Nat
  block : Nat → Nat → ℚ

/-- ElementMat_Serial::add_element_values: gather the dof indices and signs,
scale the element matrix in place by sign[i] * sign[j], then flush the scaled
matrix to the sparse matrix sink.  Returns the caller's FEMat buffer after the
call together with the sink call made. -/
def elemMatAddValues (B : BasisSig) (M : MeshSig) (elem : Nat)
    (d0 : Nat → Nat) (s0 : Nat → Int) (A : Nat → Nat → ℚ) :
    (Nat → Nat → ℚ) × MatSinkCall :=
  let dofA := matDofArr B M elem d0
  let signA := matSignArr B M elem s0
  let A2 := fun i j =>
    if i < B.ndof then
      if j < B.ndof then ((signA i * signA j : Int) : ℚ) * A i j else A i j
    else A i j
  (A2, ⟨B.ndof, dofA, B.ndof, dofA, A2⟩)

/-- Accumulations over a range with a unique key hit at i0 total the single
value written there. -/
theorem keySum_range_map (m : Nat) (key : Nat → Nat) (val : Nat → ℚ) (k : Nat)
    {i0 : Nat} (hi0 : i0 < m) (hk : key i0 = k)
    (hne : ∀ i, i < m → i ≠ i0 → key i ≠ k) :
    keySum ((List.range m).map fun i => (key i, val i)) k = val i0 := by
  induction m with
  | zero => omega
  | succ n ih =>
    rw [List.range_succ, List.map_append, keySum_append]
    rcases Nat.lt_succ_iff_lt_or_eq.mp hi0 with h | h
    · rw [ih h (fun i hi hne' => hne i (Nat.lt_succ_of_lt hi) hne')]
      have : key n ≠ k := hne n (Nat.lt_succ_self n) (by omega)
      simp [keySum, this]
    · subst h
      have hz : keySum ((List.range i0).map fun i => (key i, val i)) k = 0 := by
        refine keySum_eq_zero _ _ ?_
        intro p hp
        rcases List.mem_map.mp hp with ⟨i, hi, rfl⟩
        exact hne i (Nat.lt_succ_of_lt (List.mem_range.mp hi)) (by
          have := List.mem_range.mp hi; omega)
      rw [hz, zero_add]
      simp [keySum, hk]

/-- When the global dof map is injective on the element's valid (group, index)
pairs, the accumulation keyed by global dofs over all basis groups contributes
exactly the single value of the matching pair. -/
theorem keySum_groupPairs_eval (B : BasisSig) (M : MeshSig) (elem : Nat)
    (val : Nat × Nat → ℚ) {b0 i0 : Nat} (n : Nat) (hn : n ≤ B.nbasis)
    (hb0 : b0 < n) (hi0 : i0 < B.ndofOf b0)
    (hinj : ∀ p q : Nat × Nat, p.1 < B.nbasis → p.2 < B.ndofOf p.1 →
      q.1 < B.nbasis → q.2 < B.ndofOf q.1 →
      M.gdof elem p.1 p.2 = M.gdof elem q.1 q.2 → p = q) :
    keySum ((groupPairs B n).map fun p => (M.gdof elem p.1 p.2, val p))
      (M.gdof elem b0 i0) = val (b0, i0) := by
  induction n with
  | zero => omega
  | succ m ih =>
    rw [groupPairs, List.map_append, keySum_append]
    have hb0B : b0 < B.nbasis := Nat.lt_of_lt_of_le hb0 hn
    rcases Nat.lt_succ_iff_lt_or_eq.mp hb0 with h | h
    · rw [ih (Nat.le_of_succ_le hn) h]
      have hz : keySum (((List.range (B.ndofOf m)).map fun i => (m, i)).map
          fun p => (M.gdof elem p.1 p.2, val p)) (M.gdof elem b0 i0) = 0 := by
        refine keySum_eq_zero _ _ ?_
        intro p hp
        rcases List.mem_map.mp hp with ⟨u, hu, rfl⟩
        rcases List.mem_map.mp hu with ⟨i, hi, rfl⟩
        intro heq
        have := hinj (m, i) (b0, i0) (Nat.lt_of_lt_of_le (Nat.lt_succ_self m) hn)
          (List.mem_range.mp hi) hb0B hi0 heq
        have hm : m = b0 := congrArg Prod.fst this
        omega
      rw [hz, add_zero]
    · subst h
      have hz : keySum ((groupPairs B b0).map fun p =>
          (M.gdof elem p.1 p.2, val p)) (M.gdof elem b0 i0) = 0 := by
        refine keySum_eq_zero _ _ ?_
        intro p hp
        rcases List.mem_map.mp hp with ⟨u, hu, rfl⟩
        have hu' := (mem_groupPairs B b0 u).mp hu
        intro heq
        have := hinj u (b0, i0) (Nat.lt_of_lt_of_le hu'.1 (Nat.le_of_succ_le hn))
          hu'.2 hb0B hi0 heq
        have : u.1 = b0 := congrArg Prod.fst this
        omega
      rw [hz, zero_add]
      rw [List.map_map]
      exact keySum_range_map (B.ndofOf b0) (fun i => M.gdof elem b0 i)
        (fun i => val (b0, i)) _ hi0 rfl (by
          intro i hi hne heq
          have := hinj (b0, i) (b0, i0) hb0B hi hb0B hi0 heq
          exact hne (congrArg Prod.snd this))

/-- Evaluation of the serial scatter-add at a global dof hit by exactly one
local pair: the entry grows by sign * dof[local position]. -/
theorem serialAdd_eval (B : BasisSig) (M : MeshSig) (elem : Nat)
    (dof : Nat → ℚ) (vec : Nat → ℚ) {b i : Nat}
    (hb : b < B.nbasis) (hi : i < B.ndofOf b)
    (hinj : ∀ p q : Nat × Nat, p.1 < B.nbasis → p.2 < B.ndofOf p.1 →
      q.1 < B.nbasis → q.2 < B.ndofOf q.1 →
      M.gdof elem p.1 p.2 = M.gdof elem q.1 q.2 → p = q) :
    serialAdd B M elem dof vec (M.gdof elem b i) =
      vec (M.gdof elem b i) +
        (M.gsign elem b i : ℚ) * dof (i + B.dofOffset b) := by
  unfold serialAdd
  rw [addList_eq]
  congr 1
  exact keySum_groupPairs_eval B M elem
    (fun p => (M.gsign elem p.1 p.2 : ℚ) * dof (localPos B p))
    B.nbasis le_rfl hb hi hinj

/-- External collaborators consumed by the assembly engine: the quadrature
rule (get_num_points, get_weight), the basis interpolations for the data,
geometry and solution spaces (Basis::interp, dof values to per-quadrature-point
field values), the geometry accessor get_grad, the matrix algebra MatInverse
and MatDet, the field-space transform and its adjoint rtransform, the basis
projection Basis::add and the outer-product accumulation Basis::add_outer. -/
structure Externals where
  nqp : Nat
  weight : Nat → ℚ
  interpD : (Nat → ℚ) → Nat → Nat → ℚ
  interpG : (Nat → ℚ) → Nat → Nat → ℚ
  interpS : (Nat → ℚ) → Nat → Nat → ℚ
  getGrad : (Nat → ℚ) → Nat → Nat → ℚ
  matInv : (Nat → Nat → ℚ) → Nat → Nat → ℚ
  matDet : (Nat → Nat → ℚ) → ℚ
  transform : ℚ → (Nat → Nat → ℚ) → (Nat → Nat → ℚ) → (Nat → ℚ) → Nat → ℚ
  rtransform : ℚ → (Nat → Nat → ℚ) → (Nat → Nat → ℚ) → (Nat → ℚ) → Nat → ℚ
  addB : (Nat → Nat → ℚ) → (Nat → ℚ) → Nat → ℚ
  addOuter : Nat → (Nat → Nat → ℚ) → (Nat → Nat → ℚ) → Nat → Nat → ℚ

/-- The weak-form contract of a PDE model: the weak-form evaluator and the
directional-derivative operator constructed from (weighted detJ, data,
geometry, linearization point) and applied to a direction. -/
structure PDEModel where
  weak : ℚ → (Nat → ℚ) → (Nat → ℚ) → (Nat → ℚ) → Nat → ℚ
  jvp : ℚ → (Nat → ℚ) → (Nat → ℚ) → (Nat → ℚ) → (Nat → ℚ) → Nat → ℚ

/-- One quadrature point of the residual loop of FiniteElement::add_residual:
extract J from the geometry gradient, invert it, take its determinant,
transform the solution to the physical element, evaluate the weak form with
weight * detJ, and pull the coefficient back to the reference element. -/
def residualQp (E : Externals) (P : PDEModel) (dataQ geoQ solQ : Nat → Nat → ℚ)
    (j : Nat) : Nat → ℚ :=
  let gref := geoQ j
  let J := E.getGrad gref
  let Jinv := E.matInv J
  let detJ := E.matDet J
  let s := E.transform detJ J Jinv (solQ j)
  let coef := P.weak (E.weight j * detJ) (dataQ j) gref s
  E.rtransform detJ J Jinv coef

/-- The body of FiniteElement::add_residual for one element: gather and
interpolate data, geometry and solution, run the quadrature loop, gather the
current output values into the freshly constructed residual FEDof, project the
quadrature coefficients into it with Basis::add, and scatter-add the result
into the output vector. -/
def addResidualElem (E : Externals) (P : PDEModel) (Bd : BasisSig) (Md : MeshSig)
    (Bg : BasisSig) (Mg : MeshSig) (Bs : BasisSig) (Ms : MeshSig)
    (dataVec geoVec solVec : Nat → ℚ) (i : Nat) (out : Nat → ℚ) : Nat → ℚ :=
  let dataQ := E.interpD (gatherDof Bd Md i dataVec)
  let geoQ := E.interpG (gatherDof Bg Mg i geoVec)
  let solQ := E.interpS (gatherDof Bs Ms i solVec)
  let res_dof := E.addB (residualQp E P dataQ geoQ solQ) (gatherDof Bs Ms i out)
  serialAdd Bs Ms i res_dof out

/-- FiniteElement::add_residual over all elements (the element count is taken
from the geometry element vector, as in the source). -/
def addResidual (E : Externals) (P : PDEModel) (Bd : BasisSig) (Md : MeshSig)
    (Bg : BasisSig) (Mg : MeshSig) (Bs : BasisSig) (Ms : MeshSig)
    (dataVec geoVec solVec : Nat → ℚ) (out : Nat → ℚ) : Nat → ℚ :=
  (List.range Mg.nelems).foldl
    (fun o i => addResidualElem E P Bd Md Bg Mg Bs Ms dataVec geoVec solVec i o) out

/-- One quadrature point of FiniteElement::add_jacobian_vector_product:
transform solution and direction to the physical element, construct the
directional-derivative operator at the current solution, apply it to the
transformed direction and pull the result back. -/
def jvpQp (E : Externals) (P : PDEModel) (dataQ geoQ solQ xQ : Nat → Nat → ℚ)
    (j : Nat) : Nat → ℚ :=
  let gref := geoQ j
  let J := E.getGrad gref
  let Jinv := E.matInv J
  let detJ := E.matDet J
  let s := E.transform detJ J Jinv (solQ j)
  let x := E.transform detJ J Jinv (xQ j)
  let y := P.jvp (E.weight j * detJ) (dataQ j) gref s x
  E.rtransform detJ J Jinv y

/-- The body of FiniteElement::add_jacobian_vector_product for one element:
gather and interpolate data, geometry, solution and the direction x, run the
quadrature loop, gather the current y values into the freshly constructed
FEDof, project with Basis::add, and scatter-add into the y vector. -/
def addJvpElem (E : Externals) (P : PDEModel) (Bd : BasisSig) (Md : MeshSig)
    (Bg : BasisSig) (Mg : MeshSig) (Bs : BasisSig) (Ms : MeshSig)
    (dataVec geoVec solVec xVec : Nat → ℚ) (i : Nat) (y : Nat → ℚ) : Nat → ℚ :=
  let dataQ := E.interpD (gatherDof Bd Md i dataVec)
  let geoQ := E.interpG (gatherDof Bg Mg i geoVec)
  let solQ := E.interpS (gatherDof Bs Ms i solVec)
  let xQ := E.interpS (gatherDof Bs Ms i xVec)
  let y_dof := E.addB (jvpQp E P dataQ geoQ solQ xQ) (gatherDof Bs Ms i y)
  serialAdd Bs Ms i y_dof y

/-- FiniteElement::add_jacobian_vector_product over all elements. -/
def addJacobianVectorProduct (E : Externals) (P : PDEModel) (Bd : BasisSig)
    (Md : MeshSig) (Bg : BasisSig) (Mg : MeshSig) (Bs : BasisSig) (Ms : MeshSig)
    (dataVec geoVec solVec xVec : Nat → ℚ) (y : Nat → ℚ) : Nat → ℚ :=
  (List.range Mg.nelems).foldl
    (fun v i => addJvpElem E P Bd Md Bg Mg Bs Ms dataVec geoVec solVec xVec i v) y

/-- The one-hot reference perturbation of the dense-Jacobian probing loop:
pref.zero() followed by pref[k] = 1. -/
def oneHot (k : Nat) : Nat → ℚ :=
  fun c => if c = k then 1 else 0

/-- The per-quadrature-point dense matrix of FiniteElement::add_jacobian:
column k holds the pulled-back directional-derivative output for the one-hot
perturbation of component k (entries recorded for the ncomp field-space
components; the A2D matrix is zero elsewhere). -/
def jacQp (E : Externals) (P : PDEModel) (ncomp : Nat)
    (dataQ geoQ solQ : Nat → Nat → ℚ) (j : Nat) : Nat → Nat → ℚ :=
  let gref := geoQ j
  let J := E.getGrad gref
  let Jinv := E.matInv J
  let detJ := E.matDet J
  let s := E.transform detJ J Jinv (solQ j)
  fun m k =>
    if m < ncomp then
      if k < ncomp then
        E.rtransform detJ J Jinv
          (P.jvp (E.weight j * detJ) (dataQ j) gref s
            (E.transform detJ J Jinv (oneHot k))) m
      else 0
    else 0

/-- The dense element matrix assembled by FiniteElement::add_jacobian for one
element: the per-point matrices folded into the zero-initialized FEMat through
Basis::add_outer. -/
def addJacobianElemMat (E : Externals) (P : PDEModel) (ncomp : Nat)
    (Bd : BasisSig) (Md : MeshSig) (Bg : BasisSig) (Mg : MeshSig)
    (Bs : BasisSig) (Ms : MeshSig) (dataVec geoVec solVec : Nat → ℚ)
    (i : Nat) : Nat → Nat → ℚ :=
  let dataQ := E.interpD (gatherDof Bd Md i dataVec)
  let geoQ := E.interpG (gatherDof Bg Mg i geoVec)
  let solQ := E.interpS (gatherDof Bs Ms i solVec)
  (List.range E.nqp).foldl
    (fun Mm j => E.addOuter j (jacQp E P ncomp dataQ geoQ solQ j) Mm)
    (fun _ _ => 0)

/-- The local (pre-scatter) output of add_jacobian_vector_product for one
element over a zeroed local buffer: the quadrature outputs projected by
Basis::add. -/
def addJvpElemLocal (E : Externals) (P : PDEModel) (Bd : BasisSig) (Md : MeshSig)
    (Bg : BasisSig) (Mg : MeshSig) (Bs : BasisSig) (Ms : MeshSig)
    (dataVec geoVec solVec xVec : Nat → ℚ) (i : Nat) : Nat → ℚ :=
  let dataQ := E.interpD (gatherDof Bd Md i dataVec)
  let geoQ := E.interpG (gatherDof Bg Mg i geoVec)
  let solQ := E.interpS (gatherDof Bs Ms i solVec)
  let xQ := E.interpS (gatherDof Bs Ms i xVec)
  E.addB (jvpQp E P dataQ geoQ solQ xQ) zeroDof

/-- Dense matrix application: row r of A times the first n entries of x. -/
def matvec (n : Nat) (A : Nat → Nat → ℚ) (x : Nat → ℚ) : Nat → ℚ :=
  fun r => (Finset.range n).sum fun c => A r c * x c

/-- Outputs of TestPDEImplementation relevant to the consistency check: the
finite-difference estimate fd, the analytic value Jpref, and the reported
per-component error (fd - Jpref) / fd. -/
structure TestOutR where
  fd : Nat → ℚ
  Jpref : Nat → ℚ
  err : Nat → ℚ

/-- TestPDEImplementation for a real scalar type: the coefficients are pulled
back at the reference solution and at the solution perturbed by dh times the
perturbation, the estimate is their difference divided by dh, and the analytic
value is the pulled-back output of the directional-derivative operator
constructed at the perturbed solution. -/
def testPDEreal (E : Externals) (P : PDEModel) (data geo sref0 pref : Nat → ℚ)
    (dh : ℚ) : TestOutR :=
  let J := E.getGrad geo
  let Jinv := E.matInv J
  let detJ := E.matDet J
  let s0 := E.transform detJ J Jinv sref0
  let coef0 := P.weak detJ data geo s0
  let cref0 := E.rtransform detJ J Jinv coef0
  let sref1 := fun i => sref0 i + dh * pref i
  let s1 := E.transform detJ J Jinv sref1
  let coef1 := P.weak detJ data geo s1
  let cref := E.rtransform detJ J Jinv coef1
  let p := E.transform detJ J Jinv pref
  let Jp := P.jvp detJ data geo s1 p
  let Jpref := E.rtransform detJ J Jinv Jp
  let fd := fun i => (cref i - cref0 i) / dh
  ⟨fd, Jpref, fun i => (fd i - Jpref i) / fd i⟩

/-- Complex scalars for the complex-step branch, as real and imaginary parts. -/
def CxAdd (x y : ℚ × ℚ) : ℚ × ℚ := (x.1 + y.1, x.2 + y.2)

/-- dh * p * complex(0, 1) for a real step dh and a complex p. -/
def CxStep (dh : ℚ) (p : ℚ × ℚ) : ℚ × ℚ := (-(dh * p.2), dh * p.1)

/-- External collaborators of the test pipeline instantiated at a complex
scalar type. -/
structure CExternals where
  getGrad : (Nat → ℚ × ℚ) → Nat → Nat → ℚ × ℚ
  matInv : (Nat → Nat → ℚ × ℚ) → Nat → Nat → ℚ × ℚ
  matDet : (Nat → Nat → ℚ × ℚ) → ℚ × ℚ
  transform : ℚ × ℚ → (Nat → Nat → ℚ × ℚ) → (Nat → Nat → ℚ × ℚ) →
    (Nat → ℚ × ℚ) → Nat → ℚ × ℚ
  rtransform : ℚ × ℚ → (Nat → Nat → ℚ × ℚ) → (Nat → Nat → ℚ × ℚ) →
    (Nat → ℚ × ℚ) → Nat → ℚ × ℚ

/-- The weak form contract at a complex scalar type. -/
structure CPDEModel where
  weak : ℚ × ℚ → (Nat → ℚ × ℚ) → (Nat → ℚ × ℚ) → (Nat → ℚ × ℚ) → Nat → ℚ × ℚ

/-- The complex-step branch of TestPDEImplementation: the reference solution is
perturbed along the imaginary axis by dh times the perturbation, and the
estimate is the imaginary part of the resulting pulled-back coefficient
divided by dh. -/
def testPDEcomplexFd (E : CExternals) (P : CPDEModel)
    (data geo sref0 pref : Nat → ℚ × ℚ) (dh : ℚ) : Nat → ℚ :=
  let J := E.getGrad geo
  let Jinv := E.matInv J
  let detJ := E.matDet J
  let sref1 := fun i => CxAdd (sref0 i) (CxStep dh (pref i))
  let s1 := E.transform detJ J Jinv sref1
  let coef1 := P.weak detJ data geo s1
  let cref := E.rtransform detJ J Jinv coef1
  fun i => (cref i).2 / dh

/-- A freshly constructed ElementVector_Serial::FEDof: the constructor fills
the Basis::ndof entries with zero over arbitrary prior storage contents. -/
def freshFEDof (B : BasisSig) (junk : Nat → ℚ) : Nat → ℚ :=
  fillZero B.ndof junk

/-- A local position of a valid (group, index) pair lies below Basis::ndof. -/
theorem localPos_lt_ndof (B : BasisSig) {b i : Nat} (hb : b < B.nbasis)
    (hi : i < B.ndofOf b) : i + B.dofOffset b < B.ndof := by
  have h1 : i + B.dofOffset b < B.dofOffset (b + 1) := by
    rw [dofOffset_succ]; omega
  have h2 : B.dofOffset (b + 1) ≤ B.dofOffset B.nbasis := dofOffset_mono B hb
  unfold BasisSig.ndof
  omega

/-- C10: every newly constructed serial FEDof holds zero in all Basis::ndof
entries before any get_element_values call. -/
theorem c10_fresh_fedof_zero (B : BasisSig) (junk : Nat → ℚ) (i : Nat)
    (h : i < B.ndof) : freshFEDof B junk i = 0 := by
  unfold freshFEDof fillZero
  exact if_pos h

/-- Single-group basis and single-element mesh with one shared-free dof. -/
def oneBasis : BasisSig := ⟨1, fun _ => 1⟩

def oneMesh : MeshSig := ⟨1, fun _ _ _ => 0, fun _ _ _ => 1⟩

/-- Witness for C10 at a concrete basis, junk storage and index. -/
theorem c10_witness :
    0 < oneBasis.ndof ∧ freshFEDof oneBasis (fun k => (k : ℚ) + 5) 0 = 0 :=
  ⟨by decide, c10_fresh_fedof_zero oneBasis (fun k => (k : ℚ) + 5) 0 (by decide)⟩

/-- C8: the per-element operations of the parallel element vector leave both
the global dof array and the per-element duplicated slab unchanged; the only
transfer operations of the class are init_values, init_zero_values and
add_values. -/
theorem c8_parallel_elementwise_ops_noop (elem : Nat) (st : ParState) :
    parGetElementValues elem st = st ∧ parAddElementValues elem st = st ∧
      parSetElementValues elem st = st :=
  ⟨rfl, rfl, rfl⟩

/-- Three single-dof basis groups, one element whose dof of group b is global
dof b with positive sign. -/
def bugBasis : BasisSig := ⟨3, fun _ => 1⟩

def bugMesh : MeshSig := ⟨1, fun _ b _ => b, fun _ _ _ => 1⟩

/-- Global array with pairwise distinct entries on the three dofs in use. -/
def rampVec : Nat → ℚ := fun g => if g = 0 then 1 else if g = 1 then 2 else 3

/-- C1: with three basis groups the parallel init_values recursion (which
steps by two template arguments) never visits basis group 1, so the slab entry
of group 1 keeps its initial zero instead of sign * global value 2. -/
theorem c1_parallel_init_values_skips_basis_group :
    parInitValues bugBasis bugMesh rampVec (fun _ _ => 0) 0 1 = 0 ∧
      (bugMesh.gsign 0 1 0 : ℚ) * rampVec (bugMesh.gdof 0 1 0) = 2 := by
  have hv : parPairs ⟨3, fun _ => 1⟩ = [(2, 0), (0, 0)] := by decide
  constructor
  · norm_num [parInitValues, parInitElem, hv, bugBasis, bugMesh, rampVec,
      writeList, localPos, BasisSig.dofOffset, List.range_succ,
      Finset.sum_range_succ, Function.update_apply]
  · norm_num [bugMesh, rampVec]

/-- C3: with three basis groups the parallel add_values recursion never visits
basis group 1, so global dof 1 receives nothing although the slab holds the
value 2 for that local dof. -/
theorem c3_parallel_add_values_skips_basis_group :
    parAddValues bugBasis bugMesh (fun _ idx => rampVec idx) (fun _ => 0) 1 = 0 ∧
      (bugMesh.gsign 0 1 0 : ℚ) *
        (fun _ idx => rampVec idx) 0 (localPos bugBasis (1, 0)) = 2 := by
  have hv : parPairs ⟨3, fun _ => 1⟩ = [(2, 0), (0, 0)] := by decide
  constructor
  · norm_num [parAddValues, parAddElem, hv, bugBasis, bugMesh, rampVec,
      addList, localPos, BasisSig.dofOffset, List.range_succ,
      Finset.sum_range_succ, Function.update_apply]
  · norm_num [bugBasis, bugMesh, rampVec, localPos, BasisSig.dofOffset,
      Finset.sum_range_succ]

/-- C7: gathering an isolated element's values and scatter-adding them back
adds exactly the original global value to each of the element's global dofs
(the orientation sign squares to one), leaving each entry at twice its
original value. -/
theorem c7_round_trip_doubles (B : BasisSig) (M : MeshSig) (elem : Nat)
    (vec : Nat → ℚ) {b i : Nat} (hb : b < B.nbasis) (hi : i < B.ndofOf b)
    (hsgn : ∀ b' i', b' < B.nbasis → i' < B.ndofOf b' →
      M.gsign elem b' i' = 1 ∨ M.gsign elem b' i' = -1)
    (hinj : ∀ p q : Nat × Nat, p.1 < B.nbasis → p.2 < B.ndofOf p.1 →
      q.1 < B.nbasis → q.2 < B.ndofOf q.1 →
      M.gdof elem p.1 p.2 = M.gdof elem q.1 q.2 → p = q) :
    serialAdd B M elem (gatherDof B M elem vec) vec (M.gdof elem b i) =
      2 * vec (M.gdof elem b i) := by
  rw [serialAdd_eval B M elem _ vec hb hi hinj]
  unfold gatherDof
  rw [serialGet_eval B M elem vec zeroDof hb hi]
  rcases hsgn b i hb hi with h | h <;> rw [h] <;> push_cast <;> ring

/-- Witness for C7 on the one-dof element. -/
theorem c7_witness :
    serialAdd oneBasis oneMesh 0 (gatherDof oneBasis oneMesh 0 (fun _ => 3))
      (fun _ => 3) (oneMesh.gdof 0 0 0) = 2 * (fun _ => (3 : ℚ)) (oneMesh.gdof 0 0 0) := by
  have h := c7_round_trip_doubles oneBasis oneMesh 0 (fun _ => 3)
    (b := 0) (i := 0) (by decide) (by decide)
    (fun b' i' _ _ => Or.inl rfl)
    (by
      intro p q h1 h2 h3 h4 _
      have h1' : p.1 < 1 := h1
      have h2' : p.2 < 1 := h2
      have h3' : q.1 < 1 := h3
      have h4' : q.2 < 1 := h4
      refine Prod.ext ?_ ?_ <;> omega)
  exact h

/-- C9: the block handed to the sparse matrix sink holds, at every pair of
valid local positions, sign[i] * sign[j] times the assembled entry, and the
caller's FEMat buffer is the very block flushed (the scaling happened in
place before the flush). -/
theorem c9_element_matrix_sign_scaling (B : BasisSig) (M : MeshSig) (elem : Nat)
    (d0 : Nat → Nat) (s0 : Nat → Int) (A : Nat → Nat → ℚ) {b i b' j : Nat}
    (hb : b < B.nbasis) (hi : i < B.ndofOf b)
    (hb' : b' < B.nbasis) (hj : j < B.ndofOf b') :
    (elemMatAddValues B M elem d0 s0 A).2.block
        (i + B.dofOffset b) (j + B.dofOffset b') =
      ((M.gsign elem b i * M.gsign elem b' j : Int) : ℚ) *
        A (i + B.dofOffset b) (j + B.dofOffset b') ∧
      (elemMatAddValues B M elem d0 s0 A).1 =
        (elemMatAddValues B M elem d0 s0 A).2.block := by
  constructor
  · show (if i + B.dofOffset b < B.ndof then
        if j + B.dofOffset b' < B.ndof then
          ((matSignArr B M elem s0 (i + B.dofOffset b) *
            matSignArr B M elem s0 (j + B.dofOffset b') : Int) : ℚ) *
            A (i + B.dofOffset b) (j + B.dofOffset b')
        else A (i + B.dofOffset b) (j + B.dofOffset b')
      else A (i + B.dofOffset b) (j + B.dofOffset b')) = _
    rw [if_pos (localPos_lt_ndof B hb hi), if_pos (localPos_lt_ndof B hb' hj)]
    unfold matSignArr
    rw [writeList_localPos_eval B (fun p => M.gsign elem p.1 p.2) s0 hb hi,
      writeList_localPos_eval B (fun p => M.gsign elem p.1 p.2) s0 hb' hj]
  · rfl

/-- Witness for C9 on the one-dof element with a constant matrix. -/
theorem c9_witness :
    (elemMatAddValues oneBasis oneMesh 0 (fun _ => 0) (fun _ => 0)
        (fun _ _ => 7)).2.block (0 + oneBasis.dofOffset 0) (0 + oneBasis.dofOffset 0) =
      ((oneMesh.gsign 0 0 0 * oneMesh.gsign 0 0 0 : Int) : ℚ) *
        (fun _ _ => (7 : ℚ)) (0 + oneBasis.dofOffset 0) (0 + oneBasis.dofOffset 0) ∧
      (elemMatAddValues oneBasis oneMesh 0 (fun _ => 0) (fun _ => 0)
        (fun _ _ => 7)).1 =
      (elemMatAddValues oneBasis oneMesh 0 (fun _ => 0) (fun _ => 0)
        (fun _ _ => 7)).2.block :=
  c9_element_matrix_sign_scaling oneBasis oneMesh 0 (fun _ => 0) (fun _ => 0)
    (fun _ _ => 7) (by decide) (by decide) (by decide) (by decide)

/-- Identity-like external collaborators: one quadrature point of weight one,
interpolations that evaluate the dof buffer directly, identity transforms,
unit determinant, and a basis projection that adds the single quadrature
value per component. -/
def idExternals : Externals :=
  ⟨1, fun _ => 1, fun d _ => d, fun d _ => d, fun d _ => d,
   fun g _ _ => g 0, fun J => J, fun _ => 1,
   fun _ _ _ v => v, fun _ _ _ v => v,
   fun qs dof idx => dof idx + qs 0 idx,
   fun _ jac Mm r c => Mm r c + jac r c⟩

/-- A weak form that scales the solution by the weighted determinant, with the
matching directional-derivative operator. -/
def scalePDE : PDEModel :=
  ⟨fun w _ _ s c => w * s c, fun w _ _ _ x c => w * x c⟩

/-- C2: add_residual gathers the current output values into the residual FEDof
before projecting the element contribution and then scatter-adds the sum, so
with the serial output view an output entry that starts at 1 with a zero
element contribution ends at 2, not at 1 = initial + contribution as the
claim demands. -/
theorem c2_add_residual_not_purely_additive :
    addResidual idExternals scalePDE oneBasis oneMesh oneBasis oneMesh
        oneBasis oneMesh (fun _ => 0) (fun _ => 0) (fun _ => 0) (fun _ => 1) 0 = 2 ∧
      (fun _ => (1 : ℚ)) 0 + addResidual idExternals scalePDE oneBasis oneMesh
        oneBasis oneMesh oneBasis oneMesh (fun _ => 0) (fun _ => 0) (fun _ => 0)
        (fun _ => 0) 0 = 1 := by
  have hp : groupPairs ⟨1, fun _ => 1⟩ 1 = [(0, 0)] := by decide
  constructor
  · norm_num [addResidual, addResidualElem, residualQp, gatherDof, serialGet,
      serialAdd, writeList, addList, hp, oneBasis, oneMesh, idExternals,
      scalePDE, localPos, BasisSig.dofOffset, zeroDof, List.range_succ,
      Finset.sum_range_succ, Function.update_apply]
  · norm_num [addResidual, addResidualElem, residualQp, gatherDof, serialGet,
      serialAdd, writeList, addList, hp, oneBasis, oneMesh, idExternals,
      scalePDE, localPos, BasisSig.dofOffset, zeroDof, List.range_succ,
      Finset.sum_range_succ, Function.update_apply]

/-- The pulled-back weak-form coefficient of the test pipeline as a function
of the reference solution: transform, weak form at detJ, adjoint transform,
with the geometry Jacobian data taken from the geometry value. -/
def pullbackCoef (E : Externals) (P : PDEModel) (data geo : Nat → ℚ)
    (sref : Nat → ℚ) : Nat → ℚ :=
  let J := E.getGrad geo
  let Jinv := E.matInv J
  let detJ := E.matDet J
  E.rtransform detJ J Jinv (P.weak detJ data geo (E.transform detJ J Jinv sref))

/-- Modelled from the spec: a central real finite difference of the pulled-back
coefficient along the perturbation, with step dh. -/
def centralDiffEstimate (E : Externals) (P : PDEModel) (data geo sref pref : Nat → ℚ)
    (dh : ℚ) : Nat → ℚ :=
  fun i =>
    (pullbackCoef E P data geo (fun k => sref k + dh * pref k) i -
      pullbackCoef E P data geo (fun k => sref k - dh * pref k) i) / (2 * dh)

/-- Modelled from the spec as amended: a forward one-sided real finite
difference of the pulled-back coefficient along the perturbation, with step
dh. -/
def forwardDiffEstimate (E : Externals) (P : PDEModel) (data geo sref pref : Nat → ℚ)
    (dh : ℚ) : Nat → ℚ :=
  fun i =>
    (pullbackCoef E P data geo (fun k => sref k + dh * pref k) i -
      pullbackCoef E P data geo sref i) / dh

/-- The pulled-back weak-form coefficient of the complex test pipeline. -/
def pullbackCoefC (E : CExternals) (P : CPDEModel) (data geo : Nat → ℚ × ℚ)
    (sref : Nat → ℚ × ℚ) : Nat → ℚ × ℚ :=
  let J := E.getGrad geo
  let Jinv := E.matInv J
  let detJ := E.matDet J
  E.rtransform detJ J Jinv (P.weak detJ data geo (E.transform detJ J Jinv sref))

/-- Modelled from the spec: the complex-step estimate, perturbing the
reference solution by dh times the perturbation along the imaginary axis and
dividing the imaginary part of the resulting pulled-back coefficient by dh. -/
def complexStepEstimate (E : CExternals) (P : CPDEModel)
    (data geo sref pref : Nat → ℚ × ℚ) (dh : ℚ) : Nat → ℚ :=
  fun i =>
    (pullbackCoefC E P data geo (fun k => CxAdd (sref k) (CxStep dh (pref k))) i).2 / dh

/-- A weak form quadratic in the solution, used to separate one-sided and
central differences. -/
def quadPDE : PDEModel :=
  ⟨fun _ _ _ s c => s c * s c, fun _ _ _ s x c => 2 * s c * x c⟩

/-- C5 counterexample: for the quadratic weak form at solution 0 and
perturbation 1 the test's finite-difference estimate equals dh, whereas the
central difference claimed by the specification equals 0. -/
theorem c5_fd_estimate_not_central :
    (testPDEreal idExternals quadPDE (fun _ => 0) (fun _ => 0) (fun _ => 0)
        (fun _ => 1) (1 / 10000000)).fd 0 ≠
      centralDiffEstimate idExternals quadPDE (fun _ => 0) (fun _ => 0)
        (fun _ => 0) (fun _ => 1) (1 / 10000000) 0 := by
  norm_num [testPDEreal, quadPDE, idExternals, centralDiffEstimate, pullbackCoef]

/-- C5 as amended: the derivative consistency check estimates the directional
derivative by a forward one-sided real finite difference with step dh in the
real case, by the complex-step formula (imaginary part of the pulled-back
coefficient at the imaginary-axis perturbation, divided by dh) in the complex
case, and reports the per-component relative error of the analytic value
against the estimate. -/
theorem c5_forward_and_complex_step (E : Externals) (P : PDEModel)
    (EC : CExternals) (PC : CPDEModel) (data geo sref0 pref : Nat → ℚ)
    (dataC geoC sref0C prefC : Nat → ℚ × ℚ) (dh : ℚ) (i : Nat) :
    (testPDEreal E P data geo sref0 pref dh).fd i =
        forwardDiffEstimate E P data geo sref0 pref dh i ∧
      testPDEcomplexFd EC PC dataC geoC sref0C prefC dh i =
        complexStepEstimate EC PC dataC geoC sref0C prefC dh i ∧
      (testPDEreal E P data geo sref0 pref dh).err i =
        ((testPDEreal E P data geo sref0 pref dh).fd i -
          (testPDEreal E P data geo sref0 pref dh).Jpref i) /
          (testPDEreal E P data geo sref0 pref dh).fd i :=
  ⟨rfl, rfl, rfl⟩

/-- Pointwise linear combination of two dof or field vectors. -/
def comboF (a b : ℚ) (v w : Nat → ℚ) : Nat → ℚ :=
  fun k => a * v k + b * w k

/-- Pointwise linear combination of two quadrature-point containers. -/
def comboQ (a b : ℚ) (q1 q2 : Nat → Nat → ℚ) : Nat → Nat → ℚ :=
  fun j => comboF a b (q1 j) (q2 j)

theorem zeroDof_combo (a b : ℚ) : comboF a b zeroDof zeroDof = zeroDof := by
  funext k
  simp [comboF, zeroDof]

theorem update_combo (a b : ℚ) (d1 d2 : Nat → ℚ) (k : Nat) (x y : ℚ) :
    Function.update (comboF a b d1 d2) k (a * x + b * y) =
      comboF a b (Function.update d1 k x) (Function.update d2 k y) := by
  funext t
  simp only [Function.update_apply, comboF]
  by_cases h : t = k
  · simp [h]
  · simp [h]

theorem update_add_combo (a b : ℚ) (d1 d2 : Nat → ℚ) (k : Nat) (x y : ℚ) :
    Function.update (comboF a b d1 d2) k (comboF a b d1 d2 k + (a * x + b * y)) =
      comboF a b (Function.update d1 k (d1 k + x)) (Function.update d2 k (d2 k + y)) := by
  funext t
  simp only [Function.update_apply, comboF]
  by_cases h : t = k
  · simp [h]
    ring
  · simp [h]

/-- Ordered writes of linear combinations over a combined default produce the
linear combination of the two write sequences. -/
theorem writeList_combo {γ : Type} (l : List γ) (pos : γ → Nat) (v1 v2 : γ → ℚ)
    (a b : ℚ) (d1 d2 : Nat → ℚ) :
    writeList (l.map fun p => (pos p, a * v1 p + b * v2 p)) (comboF a b d1 d2) =
      comboF a b (writeList (l.map fun p => (pos p, v1 p)) d1)
        (writeList (l.map fun p => (pos p, v2 p)) d2) := by
  induction l generalizing d1 d2 with
  | nil => rfl
  | cons h t ih =>
    simp only [List.map_cons, writeList_cons]
    rw [update_combo, ih]

/-- Ordered accumulations of linear combinations over a combined initial
vector produce the linear combination of the two accumulation sequences. -/
theorem addList_combo {γ : Type} (l : List γ) (pos : γ → Nat) (v1 v2 : γ → ℚ)
    (a b : ℚ) (d1 d2 : Nat → ℚ) :
    addList (l.map fun p => (pos p, a * v1 p + b * v2 p)) (comboF a b d1 d2) =
      comboF a b (addList (l.map fun p => (pos p, v1 p)) d1)
        (addList (l.map fun p => (pos p, v2 p)) d2) := by
  induction l generalizing d1 d2 with
  | nil => rfl
  | cons h t ih =>
    simp only [List.map_cons, addList_cons]
    rw [update_add_combo, ih]

/-- The serial gather is linear in the global vector and the prior buffer. -/
theorem serialGet_combo (B : BasisSig) (M : MeshSig) (elem : Nat) (a b : ℚ)
    (x1 x2 d1 d2 : Nat → ℚ) :
    serialGet B M elem (comboF a b x1 x2) (comboF a b d1 d2) =
      comboF a b (serialGet B M elem x1 d1) (serialGet B M elem x2 d2) := by
  unfold serialGet
  have hmap : ((groupPairs B B.nbasis).map fun p =>
      (localPos B p,
        (M.gsign elem p.1 p.2 : ℚ) * comboF a b x1 x2 (M.gdof elem p.1 p.2))) =
      (groupPairs B B.nbasis).map fun p =>
      (localPos B p,
        a * ((M.gsign elem p.1 p.2 : ℚ) * x1 (M.gdof elem p.1 p.2)) +
          b * ((M.gsign elem p.1 p.2 : ℚ) * x2 (M.gdof elem p.1 p.2))) := by
    congr 1
    funext p
    exact congrArg (Prod.mk _) (by simp only [comboF]; ring)
  rw [hmap]
  exact writeList_combo (groupPairs B B.nbasis) (localPos B)
    (fun p => (M.gsign elem p.1 p.2 : ℚ) * x1 (M.gdof elem p.1 p.2))
    (fun p => (M.gsign elem p.1 p.2 : ℚ) * x2 (M.gdof elem p.1 p.2)) a b d1 d2

theorem gatherDof_combo (B : BasisSig) (M : MeshSig) (elem : Nat) (a b : ℚ)
    (x1 x2 : Nat → ℚ) :
    gatherDof B M elem (comboF a b x1 x2) =
      comboF a b (gatherDof B M elem x1) (gatherDof B M elem x2) := by
  unfold gatherDof
  have h := serialGet_combo B M elem a b x1 x2 zeroDof zeroDof
  rw [zeroDof_combo] at h
  exact h

/-- The serial scatter-add is linear in the local buffer and the global
vector together. -/
theorem serialAdd_combo (B : BasisSig) (M : MeshSig) (elem : Nat) (a b : ℚ)
    (dof1 dof2 y1 y2 : Nat → ℚ) :
    serialAdd B M elem (comboF a b dof1 dof2) (comboF a b y1 y2) =
      comboF a b (serialAdd B M elem dof1 y1) (serialAdd B M elem dof2 y2) := by
  unfold serialAdd
  have hmap : ((groupPairs B B.nbasis).map fun p =>
      (M.gdof elem p.1 p.2,
        (M.gsign elem p.1 p.2 : ℚ) * comboF a b dof1 dof2 (localPos B p))) =
      (groupPairs B B.nbasis).map fun p =>
      (M.gdof elem p.1 p.2,
        a * ((M.gsign elem p.1 p.2 : ℚ) * dof1 (localPos B p)) +
          b * ((M.gsign elem p.1 p.2 : ℚ) * dof2 (localPos B p))) := by
    congr 1
    funext p
    exact congrArg (Prod.mk _) (by simp only [comboF]; ring)
  rw [hmap]
  exact addList_combo (groupPairs B B.nbasis) (fun p => M.gdof elem p.1 p.2)
    (fun p => (M.gsign elem p.1 p.2 : ℚ) * dof1 (localPos B p))
    (fun p => (M.gsign elem p.1 p.2 : ℚ) * dof2 (localPos B p)) a b y1 y2

/-- The quadrature-point Jacobian-vector pipeline is linear in the direction
container when the transform, its adjoint and the directional-derivative
operator are linear. -/
theorem jvpQp_combo (E : Externals) (P : PDEModel) (dataQ geoQ solQ : Nat → Nat → ℚ)
    (a b : ℚ) (xQ1 xQ2 : Nat → Nat → ℚ)
    (hTr : ∀ dJ J Ji v w, E.transform dJ J Ji (comboF a b v w) =
      comboF a b (E.transform dJ J Ji v) (E.transform dJ J Ji w))
    (hRt : ∀ dJ J Ji v w, E.rtransform dJ J Ji (comboF a b v w) =
      comboF a b (E.rtransform dJ J Ji v) (E.rtransform dJ J Ji w))
    (hJvp : ∀ w d g s v u, P.jvp w d g s (comboF a b v u) =
      comboF a b (P.jvp w d g s v) (P.jvp w d g s u)) :
    jvpQp E P dataQ geoQ solQ (comboQ a b xQ1 xQ2) =
      comboQ a b (jvpQp E P dataQ geoQ solQ xQ1) (jvpQp E P dataQ geoQ solQ xQ2) := by
  funext j
  simp only [jvpQp, comboQ]
  rw [hTr, hJvp, hRt]

/-- The per-element body of add_jacobian_vector_product is linear in the
direction vector and the output vector together, given linear collaborators. -/
theorem addJvpElem_combo (E : Externals) (P : PDEModel) (Bd : BasisSig)
    (Md : MeshSig) (Bg : BasisSig) (Mg : MeshSig) (Bs : BasisSig) (Ms : MeshSig)
    (dataVec geoVec solVec : Nat → ℚ) (a b : ℚ) (x1 x2 : Nat → ℚ) (i : Nat)
    (y1 y2 : Nat → ℚ)
    (hTr : ∀ dJ J Ji v w, E.transform dJ J Ji (comboF a b v w) =
      comboF a b (E.transform dJ J Ji v) (E.transform dJ J Ji w))
    (hRt : ∀ dJ J Ji v w, E.rtransform dJ J Ji (comboF a b v w) =
      comboF a b (E.rtransform dJ J Ji v) (E.rtransform dJ J Ji w))
    (hJvp : ∀ w d g s v u, P.jvp w d g s (comboF a b v u) =
      comboF a b (P.jvp w d g s v) (P.jvp w d g s u))
    (hInterpS : ∀ d1 d2, E.interpS (comboF a b d1 d2) =
      comboQ a b (E.interpS d1) (E.interpS d2))
    (hAddB : ∀ q1 q2 d1 d2, E.addB (comboQ a b q1 q2) (comboF a b d1 d2) =
      comboF a b (E.addB q1 d1) (E.addB q2 d2)) :
    addJvpElem E P Bd Md Bg Mg Bs Ms dataVec geoVec solVec (comboF a b x1 x2) i
        (comboF a b y1 y2) =
      comboF a b (addJvpElem E P Bd Md Bg Mg Bs Ms dataVec geoVec solVec x1 i y1)
        (addJvpElem E P Bd Md Bg Mg Bs Ms dataVec geoVec solVec x2 i y2) := by
  simp only [addJvpElem]
  rw [gatherDof_combo Bs Ms i a b x1 x2, hInterpS,
    jvpQp_combo E P _ _ _ a b _ _ hTr hRt hJvp,
    gatherDof_combo Bs Ms i a b y1 y2, hAddB, serialAdd_combo]

/-- The element loop of add_jacobian_vector_product preserves linear
combinations of the direction and output states. -/
theorem addJvp_foldl_combo (E : Externals) (P : PDEModel) (Bd : BasisSig)
    (Md : MeshSig) (Bg : BasisSig) (Mg : MeshSig) (Bs : BasisSig) (Ms : MeshSig)
    (dataVec geoVec solVec : Nat → ℚ) (a b : ℚ) (x1 x2 : Nat → ℚ)
    (es : List Nat) (y1 y2 : Nat → ℚ)
    (hTr : ∀ dJ J Ji v w, E.transform dJ J Ji (comboF a b v w) =
      comboF a b (E.transform dJ J Ji v) (E.transform dJ J Ji w))
    (hRt : ∀ dJ J Ji v w, E.rtransform dJ J Ji (comboF a b v w) =
      comboF a b (E.rtransform dJ J Ji v) (E.rtransform dJ J Ji w))
    (hJvp : ∀ w d g s v u, P.jvp w d g s (comboF a b v u) =
      comboF a b (P.jvp w d g s v) (P.jvp w d g s u))
    (hInterpS : ∀ d1 d2, E.interpS (comboF a b d1 d2) =
      comboQ a b (E.interpS d1) (E.interpS d2))
    (hAddB : ∀ q1 q2 d1 d2, E.addB (comboQ a b q1 q2) (comboF a b d1 d2) =
      comboF a b (E.addB q1 d1) (E.addB q2 d2)) :
    es.foldl (fun v i =>
        addJvpElem E P Bd Md Bg Mg Bs Ms dataVec geoVec solVec (comboF a b x1 x2) i v)
        (comboF a b y1 y2) =
      comboF a b
        (es.foldl (fun v i =>
          addJvpElem E P Bd Md Bg Mg Bs Ms dataVec geoVec solVec x1 i v) y1)
        (es.foldl (fun v i =>
          addJvpElem E P Bd Md Bg Mg Bs Ms dataVec geoVec solVec x2 i v) y2) := by
  induction es generalizing y1 y2 with
  | nil => rfl
  | cons e t ih =>
    simp only [List.foldl_cons]
    rw [addJvpElem_combo E P Bd Md Bg Mg Bs Ms dataVec geoVec solVec a b x1 x2 e
      y1 y2 hTr hRt hJvp hInterpS hAddB]
    exact ih _ _

/-- C6: for linear collaborators and a directional-derivative operator linear
in its input, add_jacobian_vector_product started from a zero output vector is
linear in the direction vector x. -/
theorem c6_jvp_linear_in_x (E : Externals) (P : PDEModel) (Bd : BasisSig)
    (Md : MeshSig) (Bg : BasisSig) (Mg : MeshSig) (Bs : BasisSig) (Ms : MeshSig)
    (dataVec geoVec solVec : Nat → ℚ) (a b : ℚ) (x1 x2 : Nat → ℚ)
    (hTr : ∀ dJ J Ji v w, E.transform dJ J Ji (comboF a b v w) =
      comboF a b (E.transform dJ J Ji v) (E.transform dJ J Ji w))
    (hRt : ∀ dJ J Ji v w, E.rtransform dJ J Ji (comboF a b v w) =
      comboF a b (E.rtransform dJ J Ji v) (E.rtransform dJ J Ji w))
    (hJvp : ∀ w d g s v u, P.jvp w d g s (comboF a b v u) =
      comboF a b (P.jvp w d g s v) (P.jvp w d g s u))
    (hInterpS : ∀ d1 d2, E.interpS (comboF a b d1 d2) =
      comboQ a b (E.interpS d1) (E.interpS d2))
    (hAddB : ∀ q1 q2 d1 d2, E.addB (comboQ a b q1 q2) (comboF a b d1 d2) =
      comboF a b (E.addB q1 d1) (E.addB q2 d2)) :
    addJacobianVectorProduct E P Bd Md Bg Mg Bs Ms dataVec geoVec solVec
        (comboF a b x1 x2) zeroDof =
      comboF a b
        (addJacobianVectorProduct E P Bd Md Bg Mg Bs Ms dataVec geoVec solVec x1 zeroDof)
        (addJacobianVectorProduct E P Bd Md Bg Mg Bs Ms dataVec geoVec solVec x2 zeroDof) := by
  unfold addJacobianVectorProduct
  have h := addJvp_foldl_combo E P Bd Md Bg Mg Bs Ms dataVec geoVec solVec a b
    x1 x2 (List.range Mg.nelems) zeroDof zeroDof hTr hRt hJvp hInterpS hAddB
  rw [zeroDof_combo] at h
  exact h

/-- Witness for C6 at the identity collaborators and the scaling weak form. -/
theorem c6_witness :
    addJacobianVectorProduct idExternals scalePDE oneBasis oneMesh oneBasis
        oneMesh oneBasis oneMesh (fun _ => 0) (fun _ => 0) (fun _ => 0)
        (comboF 2 3 (fun _ => 1) (fun _ => 5)) zeroDof =
      comboF 2 3
        (addJacobianVectorProduct idExternals scalePDE oneBasis oneMesh oneBasis
          oneMesh oneBasis oneMesh (fun _ => 0) (fun _ => 0) (fun _ => 0)
          (fun _ => 1) zeroDof)
        (addJacobianVectorProduct idExternals scalePDE oneBasis oneMesh oneBasis
          oneMesh oneBasis oneMesh (fun _ => 0) (fun _ => 0) (fun _ => 0)
          (fun _ => 5) zeroDof) := by
  refine c6_jvp_linear_in_x idExternals scalePDE oneBasis oneMesh oneBasis
    oneMesh oneBasis oneMesh (fun _ => 0) (fun _ => 0) (fun _ => 0) 2 3
    (fun _ => 1) (fun _ => 5) ?_ ?_ ?_ ?_ ?_
  · intro dJ J Ji v w
    rfl
  · intro dJ J Ji v w
    rfl
  · intro w d g s v u
    funext c
    simp only [scalePDE, comboF]
    ring
  · intro d1 d2
    rfl
  · intro q1 q2 d1 d2
    funext idx
    simp only [idExternals, comboF, comboQ]
    ring

/-- A field-space operator commuting with all pointwise linear combinations. -/
def LinOp (f : (Nat → ℚ) → Nat → ℚ) : Prop :=
  ∀ a b v w, f (comboF a b v w) = comboF a b (f v) (f w)

theorem linop_zero (f : (Nat → ℚ) → Nat → ℚ) (hf : LinOp f) : f 0 = 0 := by
  have h := hf 0 0 0 0
  have h1 : comboF 0 0 (0 : Nat → ℚ) 0 = 0 := funext fun c => by simp [comboF]
  rw [h1] at h
  rw [h]
  exact funext fun c => by simp [comboF]

theorem linop_smul (f : (Nat → ℚ) → Nat → ℚ) (hf : LinOp f) (q : ℚ)
    (v : Nat → ℚ) : f (fun c => q * v c) = fun c => q * f v c := by
  have h1 : (fun c => q * v c) = comboF q 0 v 0 := funext fun c => by simp [comboF]
  rw [h1, hf]
  funext c
  simp [comboF]

theorem linop_sum (f : (Nat → ℚ) → Nat → ℚ) (hf : LinOp f) (n : Nat)
    (g : Nat → Nat → ℚ) :
    f ((Finset.range n).sum g) = (Finset.range n).sum fun k => f (g k) := by
  induction n with
  | zero =>
    simpa using linop_zero f hf
  | succ m ih =>
    rw [Finset.sum_range_succ, Finset.sum_range_succ, ← ih]
    have hco : (Finset.range m).sum g + g m =
        comboF 1 1 ((Finset.range m).sum g) (g m) := funext fun c => by
      simp [comboF]
    rw [hco, hf]
    funext c
    simp [comboF]

/-- A vector supported on the first n components is the weighted sum of the
one-hot vectors used by the dense-Jacobian probing loop. -/
theorem oneHot_decomp (n : Nat) (v : Nat → ℚ) (hs : ∀ k, n ≤ k → v k = 0) :
    v = (Finset.range n).sum fun t => fun c => v t * oneHot t c := by
  funext c
  rw [Finset.sum_apply]
  by_cases h : c < n
  · rw [Finset.sum_eq_single_of_mem c (Finset.mem_range.mpr h)]
    · simp [oneHot]
    · intro t _ ht
      simp [oneHot, Ne.symm ht]
  · rw [hs c (le_of_not_lt h)]
    symm
    apply Finset.sum_eq_zero
    intro t ht
    have h1 : t < n := Finset.mem_range.mp ht
    have h2 : c ≠ t := by omega
    simp [oneHot, h2]

/-- The directional pipeline at one quadrature point shared by both Jacobian
paths: transform the direction, apply the directional-derivative operator
bound to the interpolated solution, and pull the output back. -/
def jvpDirQp (E : Externals) (P : PDEModel) (dataQ geoQ solQ : Nat → Nat → ℚ)
    (j : Nat) (v : Nat → ℚ) : Nat → ℚ :=
  let gref := geoQ j
  let J := E.getGrad gref
  let Jinv := E.matInv J
  let detJ := E.matDet J
  let s := E.transform detJ J Jinv (solQ j)
  E.rtransform detJ J Jinv
    (P.jvp (E.weight j * detJ) (dataQ j) gref s (E.transform detJ J Jinv v))

/-- The matrix-free quadrature pipeline applies the shared directional
pipeline to the interpolated direction. -/
theorem jvpQp_eq_dir (E : Externals) (P : PDEModel)
    (dataQ geoQ solQ xQ : Nat → Nat → ℚ) (j : Nat) :
    jvpQp E P dataQ geoQ solQ xQ j = jvpDirQp E P dataQ geoQ solQ j (xQ j) := rfl

/-- The dense-path quadrature matrix records the shared directional pipeline
at the one-hot perturbations. -/
theorem jacQp_eq_dir (E : Externals) (P : PDEModel) (ncomp : Nat)
    (dataQ geoQ solQ : Nat → Nat → ℚ) (j : Nat) :
    jacQp E P ncomp dataQ geoQ solQ j = fun m k =>
      if m < ncomp then
        if k < ncomp then jvpDirQp E P dataQ geoQ solQ j (oneHot k) m else 0
      else 0 := rfl

theorem jvpDirQp_linop (E : Externals) (P : PDEModel)
    (dataQ geoQ solQ : Nat → Nat → ℚ) (j : Nat)
    (hTr : ∀ dJ J Ji a b v w, E.transform dJ J Ji (comboF a b v w) =
      comboF a b (E.transform dJ J Ji v) (E.transform dJ J Ji w))
    (hRt : ∀ dJ J Ji a b v w, E.rtransform dJ J Ji (comboF a b v w) =
      comboF a b (E.rtransform dJ J Ji v) (E.rtransform dJ J Ji w))
    (hJvp : ∀ w d g s a b v u, P.jvp w d g s (comboF a b v u) =
      comboF a b (P.jvp w d g s v) (P.jvp w d g s u)) :
    LinOp (jvpDirQp E P dataQ geoQ solQ j) := by
  intro a b v w
  simp only [jvpDirQp]
  rw [hTr, hJvp, hRt]

/-- Applying row m of the per-point probe matrix to a direction supported on
the field-space components reproduces the shared directional pipeline. -/
theorem jacQp_row_apply (E : Externals) (P : PDEModel) (ncomp : Nat)
    (dataQ geoQ solQ : Nat → Nat → ℚ) (j : Nat) (v : Nat → ℚ)
    (hTr : ∀ dJ J Ji a b v w, E.transform dJ J Ji (comboF a b v w) =
      comboF a b (E.transform dJ J Ji v) (E.transform dJ J Ji w))
    (hRt : ∀ dJ J Ji a b v w, E.rtransform dJ J Ji (comboF a b v w) =
      comboF a b (E.rtransform dJ J Ji v) (E.rtransform dJ J Ji w))
    (hJvp : ∀ w d g s a b v u, P.jvp w d g s (comboF a b v u) =
      comboF a b (P.jvp w d g s v) (P.jvp w d g s u))
    (hRtSupp : ∀ dJ J Ji w m, ncomp ≤ m → E.rtransform dJ J Ji w m = 0)
    (hvSupp : ∀ k, ncomp ≤ k → v k = 0) :
    (fun m => (Finset.range ncomp).sum fun k =>
        jacQp E P ncomp dataQ geoQ solQ j m k * v k) =
      jvpDirQp E P dataQ geoQ solQ j v := by
  have hlin := jvpDirQp_linop E P dataQ geoQ solQ j hTr hRt hJvp
  funext m
  by_cases hm : m < ncomp
  · have hrow : (Finset.range ncomp).sum (fun k =>
        jacQp E P ncomp dataQ geoQ solQ j m k * v k) =
        (Finset.range ncomp).sum (fun k =>
          v k * jvpDirQp E P dataQ geoQ solQ j (oneHot k) m) := by
      apply Finset.sum_congr rfl
      intro k hk
      simp only [jacQp_eq_dir, if_pos hm, if_pos (Finset.mem_range.mp hk)]
      ring
    rw [hrow]
    have hdec := oneHot_decomp ncomp v hvSupp
    conv_rhs => rw [hdec]
    rw [linop_sum _ hlin]
    have hterm : ∀ k, jvpDirQp E P dataQ geoQ solQ j
        (fun c => v k * oneHot k c) = fun c =>
          v k * jvpDirQp E P dataQ geoQ solQ j (oneHot k) c :=
      fun k => linop_smul _ hlin (v k) (oneHot k)
    rw [Finset.sum_congr rfl fun k _ => hterm k, Finset.sum_apply]
  · rw [Finset.sum_eq_zero fun k _ => by
      simp only [jacQp_eq_dir, if_neg hm, zero_mul]]
    show (0 : ℚ) = jvpDirQp E P dataQ geoQ solQ j v m
    unfold jvpDirQp
    rw [hRtSupp _ _ _ _ m (le_of_not_lt hm)]

theorem matvec_zero (n : Nat) (x : Nat → ℚ) (r : Nat) :
    matvec n (fun _ _ => 0) x r = 0 := by
  simp [matvec]

/-- Folding per-point probe matrices through Basis::add_outer accumulates, in
the matrix-vector product, one adjoint-projected term per quadrature point. -/
theorem matvec_addOuter_fold (E : Externals) (n ncomp : Nat)
    (proj : Nat → (Nat → ℚ) → Nat → ℚ) (jacs : Nat → Nat → Nat → ℚ)
    (x : Nat → ℚ) (m : Nat) (M0 : Nat → Nat → ℚ)
    (hOuter : ∀ j jac Mm r, matvec n (E.addOuter j jac Mm) x r =
      matvec n Mm x r + proj j (fun mm => (Finset.range ncomp).sum fun k =>
        jac mm k * E.interpS x j k) r)
    (r : Nat) :
    matvec n ((List.range m).foldl (fun Mm j => E.addOuter j (jacs j) Mm) M0) x r =
      matvec n M0 x r + (Finset.range m).sum fun j =>
        proj j (fun mm => (Finset.range ncomp).sum fun k =>
          jacs j mm k * E.interpS x j k) r := by
  induction m with
  | zero => simp
  | succ t ih =>
    rw [List.range_succ, List.foldl_append]
    simp only [List.foldl_cons, List.foldl_nil]
    rw [hOuter, ih, Finset.sum_range_succ]
    ring

/-- C4: the dense element Jacobian assembled by add_jacobian, applied to the
gathered direction vector, equals the local per-element output of
add_jacobian_vector_product for the same inputs, whenever the transform, its
adjoint and the directional-derivative operator are linear, the field space
has ncomp components, and the basis projection and outer-product accumulation
satisfy the adjoint contract through a per-point projector proj. -/
theorem c4_dense_jacobian_matches_matrix_free (E : Externals) (P : PDEModel)
    (ncomp : Nat) (Bd : BasisSig) (Md : MeshSig) (Bg : BasisSig) (Mg : MeshSig)
    (Bs : BasisSig) (Ms : MeshSig) (dataVec geoVec solVec xVec : Nat → ℚ)
    (i : Nat) (proj : Nat → (Nat → ℚ) → Nat → ℚ) (n : Nat) (r : Nat)
    (hTr : ∀ dJ J Ji a b v w, E.transform dJ J Ji (comboF a b v w) =
      comboF a b (E.transform dJ J Ji v) (E.transform dJ J Ji w))
    (hRt : ∀ dJ J Ji a b v w, E.rtransform dJ J Ji (comboF a b v w) =
      comboF a b (E.rtransform dJ J Ji v) (E.rtransform dJ J Ji w))
    (hJvp : ∀ w d g s a b v u, P.jvp w d g s (comboF a b v u) =
      comboF a b (P.jvp w d g s v) (P.jvp w d g s u))
    (hRtSupp : ∀ dJ J Ji w m, ncomp ≤ m → E.rtransform dJ J Ji w m = 0)
    (hInterpSupp : ∀ d j k, ncomp ≤ k → E.interpS d j k = 0)
    (hOuter : ∀ j jac Mm v r', matvec n (E.addOuter j jac Mm) v r' =
      matvec n Mm v r' + proj j (fun mm => (Finset.range ncomp).sum fun k =>
        jac mm k * E.interpS v j k) r')
    (hAddB : ∀ q d idx, E.addB q d idx =
      d idx + (Finset.range E.nqp).sum fun j => proj j (q j) idx) :
    matvec n (addJacobianElemMat E P ncomp Bd Md Bg Mg Bs Ms dataVec geoVec solVec i)
        (gatherDof Bs Ms i xVec) r =
      addJvpElemLocal E P Bd Md Bg Mg Bs Ms dataVec geoVec solVec xVec i r := by
  simp only [addJacobianElemMat, addJvpElemLocal]
  rw [matvec_addOuter_fold E n ncomp proj _ _ E.nqp _
    (fun j jac Mm r' => hOuter j jac Mm (gatherDof Bs Ms i xVec) r') r]
  rw [matvec_zero, zero_add, hAddB]
  show _ = zeroDof r + _
  rw [show zeroDof r = 0 from rfl, zero_add]
  apply Finset.sum_congr rfl
  intro j _
  congr 1
  rw [jacQp_row_apply E P ncomp _ _ _ j _ hTr hRt hJvp hRtSupp
    (fun k hk => hInterpSupp (gatherDof Bs Ms i xVec) j k hk)]
  rw [jvpQp_eq_dir]

/-- Per-point projector of the witness basis: component zero only. -/
def c4Proj : Nat → (Nat → ℚ) → Nat → ℚ :=
  fun _ v idx => if idx = 0 then v 0 else 0

/-- Witness collaborators: one quadrature point, one field-space component,
identity geometry handling, projections confined to component zero. -/
def c4Externals : Externals :=
  ⟨1, fun _ => 1, fun d _ => d, fun d _ => d,
   fun d _ k => if k = 0 then d 0 else 0,
   fun g _ _ => g 0, fun J => J, fun _ => 1,
   fun _ _ _ v => v,
   fun _ _ _ v k => if k = 0 then v 0 else 0,
   fun qs dof idx => dof idx + (if idx = 0 then qs 0 0 else 0),
   fun _ jac Mm r c => Mm r c + (if r = 0 ∧ c = 0 then jac 0 0 else 0)⟩

/-- Witness for C4 at the witness collaborators and the scaling weak form. -/
theorem c4_witness :
    matvec 1 (addJacobianElemMat c4Externals scalePDE 1 oneBasis oneMesh
        oneBasis oneMesh oneBasis oneMesh (fun _ => 0) (fun _ => 0)
        (fun _ => 0) 0) (gatherDof oneBasis oneMesh 0 (fun _ => 4)) 0 =
      addJvpElemLocal c4Externals scalePDE oneBasis oneMesh oneBasis oneMesh
        oneBasis oneMesh (fun _ => 0) (fun _ => 0) (fun _ => 0)
        (fun _ => 4) 0 0 := by
  refine c4_dense_jacobian_matches_matrix_free c4Externals scalePDE 1 oneBasis
    oneMesh oneBasis oneMesh oneBasis oneMesh (fun _ => 0) (fun _ => 0)
    (fun _ => 0) (fun _ => 4) 0 c4Proj 1 0 ?_ ?_ ?_ ?_ ?_ ?_ ?_
  · intro dJ J Ji a b v w
    rfl
  · intro dJ J Ji a b v w
    funext k
    by_cases h : k = 0 <;> simp [c4Externals, comboF, h]
  · intro w d g s a b v u
    funext c
    simp only [scalePDE, comboF]
    ring
  · intro dJ J Ji w m hm
    have hne : m ≠ 0 := by omega
    simp [c4Externals, hne]
  · intro d j k hk
    have hne : k ≠ 0 := by omega
    simp [c4Externals, hne]
  · intro j jac Mm v r'
    by_cases hr : r' = 0
    · simp [matvec, c4Externals, c4Proj, Finset.sum_range_one, hr]
      ring
    · simp [matvec, c4Externals, c4Proj, Finset.sum_range_one, hr]
  · intro q d idx
    simp [c4Externals, c4Proj, Finset.sum_range_one]
